import Mathlib

/-
  A verification development for the minewire proxy server.

  The Go sources are shallowly embedded: byte streams are lists of
  naturals (each byte a value below 256), Go machine integers are
  modelled as Nat or Int with masks and divisions made explicit
  (for a two's-complement integer, the operation AND 0x7F is the
  remainder modulo 128, and an arithmetic right shift by 7 is floor
  division by 128, which for a positive divisor coincides with
  Euclidean division), and external library calls (SHA-256, AES-GCM,
  float trigonometry, the random source) are abstracted as explicit
  parameters or oracle inputs.
-/

namespace Minewire

/-! ## VarInt codec, from the codec source file

    ReadVarInt accumulates 7-bit groups into a 64-bit Go int via
    result OR (value shifted left by 7*numRead); all accumulated
    values are non-negative and below 2 to the 43, so the Go int
    never overflows and is modelled as a Nat.  The function returns
    the error outcome as an Option together with the bytes remaining
    after the consumed ones. -/

def readVarIntAux : List Nat → Nat → Nat → Option Nat × List Nat
  | [], _, _ => (none, [])
  | b :: rest, numRead, result =>
    -- Go: value := read AND 0x7F; result := result OR (value << (7*numRead));
    --     numRead++; if numRead > 5 then error; if read AND 0x80 == 0 then stop.
    if numRead + 1 > 5 then (none, rest)
    else if b &&& 128 = 0 then (some (result ||| ((b &&& 127) <<< (7 * numRead))), rest)
    else readVarIntAux rest (numRead + 1) (result ||| ((b &&& 127) <<< (7 * numRead)))

def readVarIntGo (s : List Nat) : Option Nat × List Nat :=
  readVarIntAux s 0 0

/-- WriteVarInt on a non-negative argument, as the list of emitted bytes.
    Go: temp := value AND 0x7F; value := value >> 7 (arithmetic shift, i.e.
    floor division by 128); if value is not 0 set the continuation bit. -/
def writeVarIntNat (n : Nat) : List Nat :=
  if _h : n / 128 = 0 then [n % 128]
  else (n % 128 + 128) :: writeVarIntNat (n / 128)
termination_by n
decreasing_by omega

/-- WriteVarInt on a Go int of either sign, with explicit fuel standing for
    the number of loop iterations; a result of none for every fuel value means
    the Go loop never terminates.  Division and remainder on Int are Euclidean,
    which for the positive divisor 128 agree with the arithmetic shift and the
    low-bits mask of the Go source. -/
def writeVarIntGo : Nat → Int → Option (List Nat)
  | 0, _ => none
  | fuel + 1, value =>
    if value / 128 = 0 then some [(value % 128).toNat]
    else (writeVarIntGo fuel (value / 128)).map
      (fun rest => ((value % 128).toNat + 128) :: rest)

/-! ### Bit-level helper lemmas -/

theorem lor_shiftLeft_eq_add {a b k : Nat} (h : a < 2 ^ k) :
    a ||| (b <<< k) = 2 ^ k * b + a := by
  apply Nat.eq_of_testBit_eq
  intro j
  rw [Nat.testBit_lor, Nat.testBit_shiftLeft, Nat.testBit_mul_pow_two_add b h j]
  by_cases hj : j < k
  · have hge : ¬ j ≥ k := by omega
    simp [hj, hge]
  · have hkj : k ≤ j := by omega
    have ha : a.testBit j = false :=
      Nat.testBit_eq_false_of_lt
        (lt_of_lt_of_le h (Nat.pow_le_pow_right (by norm_num) hkj))
    simp [hj, ha, hkj]

theorem and_127_eq (b : Nat) : b &&& 127 = b % 128 := by
  have h := Nat.and_pow_two_sub_one_eq_mod b 7
  norm_num at h
  exact h

theorem and_128_eq_zero {b : Nat} (h : b < 128) : b &&& 128 = 0 := by
  have h1 : (128 : Nat) = 2 ^ 7 := by norm_num
  rw [h1, Nat.and_two_pow, Nat.testBit_eq_false_of_lt (by omega)]
  rfl

theorem and_128_ne_zero {b : Nat} (h1 : 128 ≤ b) (h2 : b < 256) : b &&& 128 ≠ 0 := by
  have h128 : (128 : Nat) = 2 ^ 7 := by norm_num
  rw [h128, Nat.and_two_pow]
  have hb : b.testBit 7 = true := by
    rw [Nat.testBit_to_div_mod]
    have hd : b / 128 = 1 := by omega
    norm_num [hd]
  simp [hb]

/-! ### Round trip -/

theorem writeVarIntNat_ne_nil (n : Nat) : writeVarIntNat n ≠ [] := by
  rw [writeVarIntNat]
  split <;> simp

theorem readVarIntAux_write (n : Nat) :
    ∀ k acc rest, n < 2 ^ (7 * (5 - k)) → k ≤ 4 → acc < 2 ^ (7 * k) →
      readVarIntAux (writeVarIntNat n ++ rest) k acc
        = (some (2 ^ (7 * k) * n + acc), rest) := by
  induction n using Nat.strong_induction_on with
  | _ n ih =>
    intro k acc rest hn hk hacc
    rw [writeVarIntNat]
    split
    · rename_i h0
      have hn128 : n < 128 := by omega
      have hmod : n % 128 = n := Nat.mod_eq_of_lt hn128
      rw [List.cons_append, List.nil_append, readVarIntAux,
        if_neg (by omega), if_pos (and_128_eq_zero (by omega))]
      simp only [hmod, and_127_eq]
      rw [lor_shiftLeft_eq_add hacc]
    · rename_i h0
      have hk3 : k ≤ 3 := by
        by_contra hgt
        have hk4 : k = 4 := by omega
        subst hk4
        norm_num at hn
        omega
      rw [List.cons_append, readVarIntAux, if_neg (by omega),
        if_neg (and_128_ne_zero (by omega) (by omega))]
      have hmask : (n % 128 + 128) &&& 127 = n % 128 := by
        rw [and_127_eq]
        omega
      rw [hmask, lor_shiftLeft_eq_add hacc]
      have hdivlt : n / 128 < n := by omega
      have hp : 2 ^ (7 * (k + 1)) = 2 ^ (7 * k) * 128 := by
        rw [show (128:Nat) = 2 ^ 7 by norm_num, ← pow_add]
        congr 1
      have hd : n / 128 < 2 ^ (7 * (5 - (k + 1))) := by
        rw [Nat.div_lt_iff_lt_mul (by norm_num : (0:Nat) < 128)]
        calc n < 2 ^ (7 * (5 - k)) := hn
          _ = 2 ^ (7 * (5 - (k + 1))) * 128 := by
              rw [show (128:Nat) = 2 ^ 7 by norm_num, ← pow_add]
              congr 1
              omega
      have hacc2 : 2 ^ (7 * k) * (n % 128) + acc < 2 ^ (7 * (k + 1)) := by
        have hm : n % 128 ≤ 127 := by omega
        have h1 : 2 ^ (7 * k) * (n % 128) ≤ 2 ^ (7 * k) * 127 :=
          Nat.mul_le_mul_left _ hm
        have h2 : (0:Nat) < 2 ^ (7 * k) := Nat.pos_pow_of_pos _ (by norm_num)
        linarith [hacc]
      rw [ih (n / 128) hdivlt (k + 1) _ rest hd (by omega) hacc2]
      have hnm : 128 * (n / 128) + n % 128 = n := Nat.div_add_mod n 128
      have heq : 2 ^ (7 * (k + 1)) * (n / 128) + (2 ^ (7 * k) * (n % 128) + acc)
          = 2 ^ (7 * k) * n + acc := by
        rw [hp]
        calc 2 ^ (7 * k) * 128 * (n / 128) + (2 ^ (7 * k) * (n % 128) + acc)
            = 2 ^ (7 * k) * (128 * (n / 128) + n % 128) + acc := by ring
          _ = 2 ^ (7 * k) * n + acc := by rw [hnm]
      rw [heq]

theorem readVarIntGo_write {n : Nat} (hn : n < 2 ^ 35) (rest : List Nat) :
    readVarIntGo (writeVarIntNat n ++ rest) = (some n, rest) := by
  have h := readVarIntAux_write n 0 0 rest (by norm_num; omega) (by omega) (by norm_num)
  simpa using h

theorem writeVarIntNat_length : ∀ k n, n < 2 ^ (7 * (k + 1)) →
    (writeVarIntNat n).length ≤ k + 1 := by
  intro k
  induction k with
  | zero =>
    intro n hn
    norm_num at hn
    rw [writeVarIntNat, dif_pos (by omega)]
    simp
  | succ k ihk =>
    intro n hn
    rw [writeVarIntNat]
    split
    · simp
    · rename_i h0
      have hd : n / 128 < 2 ^ (7 * (k + 1)) := by
        rw [Nat.div_lt_iff_lt_mul (by norm_num : (0:Nat) < 128)]
        calc n < 2 ^ (7 * (k + 2)) := hn
          _ = 2 ^ (7 * (k + 1)) * 128 := by
              rw [show (128:Nat) = 2 ^ 7 by norm_num, ← pow_add]
              congr 1
      have := ihk (n / 128) hd
      simp only [List.length_cons]
      omega

/-! ### Relating the fuelled Int writer to the Nat writer -/

theorem writeVarIntGo_neg : ∀ (fuel : Nat) (v : Int), v < 0 →
    writeVarIntGo fuel v = none := by
  intro fuel
  induction fuel with
  | zero => intro v _; rfl
  | succ fuel ih =>
    intro v hv
    have hdneg : v / 128 < 0 := Int.ediv_neg' hv (by norm_num)
    rw [writeVarIntGo, if_neg (by omega)]
    rw [ih (v / 128) hdneg]
    rfl

theorem writeVarIntGo_nat : ∀ (fuel : Nat) (n : Nat), n < 128 ^ (fuel + 1) →
    writeVarIntGo (fuel + 1) (n : Int) = some (writeVarIntNat n) := by
  intro fuel
  induction fuel with
  | zero =>
    intro n hn
    norm_num at hn
    have hd : (n : Int) / 128 = 0 := by omega
    have h9 : ((n : Int) % 128).toNat = n % 128 := by omega
    rw [writeVarIntGo, if_pos hd, writeVarIntNat, dif_pos (by omega), h9]
  | succ fuel ih =>
    intro n hn
    have h9 : ((n : Int) % 128).toNat = n % 128 := by omega
    have hdiv : (n : Int) / 128 = ((n / 128 : Nat) : Int) := by omega
    by_cases h0 : n / 128 = 0
    · have hd0 : (n : Int) / 128 = 0 := by omega
      rw [writeVarIntGo, if_pos hd0, writeVarIntNat, dif_pos h0, h9]
    · have hne : ¬ ((n : Int) / 128 = 0) := by omega
      rw [writeVarIntGo, if_neg hne, hdiv]
      have hd : n / 128 < 128 ^ (fuel + 1) := by
        rw [Nat.div_lt_iff_lt_mul (by norm_num : (0:Nat) < 128)]
        calc n < 128 ^ (fuel + 2) := hn
          _ = 128 ^ (fuel + 1) * 128 := by rw [pow_succ]
      rw [ih (n / 128) hd]
      simp only [Option.map_some']
      conv_rhs => rw [writeVarIntNat, dif_neg h0]
      rw [h9]

/-! ## Claim theorems for the VarInt codec -/

/-- Claim C5: for every n with 0 ≤ n < 2^31, the byte sequence produced by
    WriteVarInt applied to n (five loop iterations of fuel always suffice)
    reads back to exactly n with no bytes left over. -/
theorem varint_round_trip (n : Nat) (h : n < 2 ^ 31) :
    writeVarIntGo 5 (n : Int) = some (writeVarIntNat n)
    ∧ readVarIntGo (writeVarIntNat n) = (some n, []) := by
  constructor
  · exact writeVarIntGo_nat 4 n (by norm_num; omega)
  · have hh := readVarIntGo_write (n := n) (by omega) []
    simpa using hh

/-- Witness for C5 at the input 300. -/
theorem varint_round_trip_witness :
    writeVarIntGo 5 ((300 : Nat) : Int) = some (writeVarIntNat 300)
    ∧ readVarIntGo (writeVarIntNat 300) = (some 300, []) :=
  varint_round_trip 300 (by norm_num)

/-- Claim C6 counterexample: the five-byte VarInt encoding of -1 (bytes
    FF FF FF FF 0F, whose accumulated 32-bit pattern has the top bit set)
    is decoded by ReadVarInt to the non-negative accumulated value
    4294967295, not to the signed value -1: the Go code accumulates into a
    64-bit int and never reinterprets the 32-bit pattern as signed. -/
theorem readVarInt_signed_counterexample :
    (readVarIntGo [255, 255, 255, 255, 15]).1 = some 4294967295
    ∧ ((4294967295 : Int) ≠ -1) ∧ ((0 : Int) ≤ 4294967295) := by
  refine ⟨by decide, by decide, by decide⟩

/-- Claim C6 (amended): ReadVarInt applies no 32-bit two's-complement
    interpretation.  For every well-formed encoding whose accumulated
    32-bit pattern p has the top bit set, the function returns the
    non-negative value p itself, not the negative value p - 2^32. -/
theorem readVarInt_no_sign_extension (p : Nat) (h1 : 2 ^ 31 ≤ p) (h2 : p < 2 ^ 32) :
    (readVarIntGo (writeVarIntNat p)).1 = some p
    ∧ (0 : Int) ≤ (p : Int)
    ∧ (p : Int) ≠ (p : Int) - 2 ^ 32 := by
  have hh := readVarIntGo_write (n := p) (by omega) []
  rw [List.append_nil] at hh
  exact ⟨by rw [hh], Int.natCast_nonneg p, by omega⟩

/-- Witness for the amended C6 at the pattern of -1. -/
theorem readVarInt_no_sign_extension_witness :
    (readVarIntGo (writeVarIntNat 4294967295)).1 = some 4294967295
    ∧ (0 : Int) ≤ ((4294967295 : Nat) : Int)
    ∧ ((4294967295 : Nat) : Int) ≠ ((4294967295 : Nat) : Int) - 2 ^ 32 :=
  readVarInt_no_sign_extension 4294967295 (by norm_num) (by norm_num)

/-- Claim C10: WriteVarInt terminates exactly on the non-negative inputs.
    For v at least 0 some fuel makes the loop finish (and the output has at
    most 5 bytes whenever v is below 2^31), while for negative v the
    arithmetic shift keeps the value negative forever, so no amount of fuel
    makes the loop finish. -/
theorem writeVarInt_terminates_iff (v : Int) :
    (0 ≤ v → ∃ fuel l, writeVarIntGo fuel v = some l ∧ (v < 2 ^ 31 → l.length ≤ 5))
    ∧ (v < 0 → ∀ fuel, writeVarIntGo fuel v = none) := by
  constructor
  · intro hv
    obtain ⟨n, rfl⟩ : ∃ n : Nat, v = (n : Int) := ⟨v.toNat, (Int.toNat_of_nonneg hv).symm⟩
    refine ⟨n + 1, writeVarIntNat n, ?_, ?_⟩
    · apply writeVarIntGo_nat
      calc n < 2 ^ n := Nat.lt_two_pow n
        _ ≤ 128 ^ n := Nat.pow_le_pow_left (by norm_num) n
        _ ≤ 128 ^ (n + 1) := Nat.pow_le_pow_right (by norm_num) (by omega)
    · intro hlt
      have hn : n < 2 ^ 35 := by omega
      exact writeVarIntNat_length 4 n (by norm_num; omega)
  · intro hv fuel
    exact writeVarIntGo_neg fuel v hv

/-- Witness for C10: termination at 300, divergence at -5. -/
theorem writeVarInt_terminates_iff_witness :
    (∃ fuel l, writeVarIntGo fuel (300 : Int) = some l
      ∧ ((300 : Int) < 2 ^ 31 → l.length ≤ 5))
    ∧ (∀ fuel, writeVarIntGo fuel (-5 : Int) = none) :=
  ⟨(writeVarInt_terminates_iff 300).1 (by norm_num),
   (writeVarInt_terminates_iff (-5)).2 (by norm_num)⟩

/-! ## Time Update housekeeping, from the tunnel source

    Each firing of the 20-second ticker advances worldTime by 20*20 and
    writes a packet carrying worldTime and -worldTime % 24000, where the Go
    remainder operator truncates toward zero (Int.tmod). -/

def timeTick (worldTime : Int) : Int × Int :=
  (worldTime + 20 * 20, Int.tmod (-(worldTime + 20 * 20)) 24000)

def worldTimeAfter : Nat → Int
  | 0 => 0
  | n + 1 => (timeTick (worldTimeAfter n)).1

def timeOfDayAt (n : Nat) : Int := (timeTick (worldTimeAfter n)).2

theorem tmod_neg_cast (m : Nat) :
    Int.tmod (-(m : Int)) 24000 = -((m : Int) % 24000) := by
  have h1 : ((m : Int) % 24000) = ((m % 24000 : Nat) : Int) := by omega
  rw [h1]
  cases m with
  | zero => rfl
  | succ k => rfl

theorem worldTimeAfter_eq (n : Nat) : worldTimeAfter n = 400 * (n : Int) := by
  induction n with
  | zero => simp [worldTimeAfter]
  | succ k ih =>
    show (timeTick (worldTimeAfter k)).1 = _
    rw [timeTick, ih]
    push_cast
    ring

/-- Claim C8 counterexample: after the first tick the world age is 400 and
    the emitted time of day is -400, a negative value, not the mathematical
    residue 23600 the claim requires. -/
theorem time_of_day_counterexample :
    worldTimeAfter 1 = 400 ∧ timeOfDayAt 0 = -400
    ∧ timeOfDayAt 0 < 0 ∧ timeOfDayAt 0 ≠ 23600 := by
  refine ⟨by decide, by decide, by decide, by decide⟩

/-- Claim C8 (amended): each tick increases world_age by exactly 400 and
    emits time_of_day computed with the Go truncated remainder, which is the
    negated mathematical residue -(world_age mod 24000): a value that is
    never positive (for example -400 when world_age is 400). -/
theorem time_update_spec (n : Nat) :
    worldTimeAfter (n + 1) = worldTimeAfter n + 400
    ∧ timeOfDayAt n = -(worldTimeAfter (n + 1) % 24000)
    ∧ timeOfDayAt n ≤ 0 := by
  have hw := worldTimeAfter_eq n
  have hw1 := worldTimeAfter_eq (n + 1)
  have hstep : worldTimeAfter (n + 1) = worldTimeAfter n + 400 := by
    rw [hw, hw1]
    push_cast
    ring
  have hcast : worldTimeAfter n + 20 * 20 = ((400 * (n + 1) : Nat) : Int) := by
    rw [hw]
    push_cast
    ring
  have htod : timeOfDayAt n = -(((400 * (n + 1) : Nat) : Int) % 24000) := by
    show (timeTick (worldTimeAfter n)).2 = _
    rw [timeTick]
    simp only []
    rw [hcast, tmod_neg_cast]
  refine ⟨hstep, ?_, ?_⟩
  · rw [htod, hw1]
    push_cast
    ring_nf
  · rw [htod]
    have := Int.emod_nonneg ((400 * (n + 1) : Nat) : Int) (by norm_num : (24000:Int) ≠ 0)
    omega

/-! ## Per-connection packet dispatch, from the handler source

    processPacket reads the packet id and dispatches on the connection
    state (0 handshake, 1 status, 2 login).  Side effects on the socket are
    recorded as an effect list; the closed flag records whether this call
    closed the connection.  Error results of ReadVarInt are replaced by 0,
    as the Go code ignores the error value in these call sites. -/

inductive PEffect
  | sendStatus
  | sendPong (payload : List Nat)
  | sendDisconnect
  | startSession (username : List Nat)
  deriving DecidableEq

structure ProcResult where
  state : Nat
  closed : Bool
  effects : List PEffect
  deriving DecidableEq

def lookupA {α β : Type} [DecidableEq α] : List (α × β) → α → Option β
  | [], _ => none
  | (k, v) :: rest, key => if key = k then some v else lookupA rest key

def processPacket (users : List (List Nat × List Nat)) (packetData : List Nat)
    (state : Nat) : ProcResult :=
  let r0 := readVarIntGo packetData
  let pid := r0.1.getD 0
  let pBuf := r0.2
  if state = 0 then
    if pid = 0 then
      let r1 := readVarIntGo pBuf
      let r2 := readVarIntGo r1.2
      let r3 := (r2.2.drop (r2.1.getD 0)).drop 2
      let r4 := readVarIntGo r3
      ⟨r4.1.getD 0, false, []⟩
    else ⟨0, false, []⟩
  else if state = 1 then
    if pid = 0 then ⟨1, false, [.sendStatus]⟩
    else if pid = 1 then ⟨1, false, [.sendPong pBuf]⟩
    else ⟨1, false, []⟩
  else if state = 2 then
    if pid = 0 then
      let r1 := readVarIntGo pBuf
      let l := r1.1.getD 0
      let name := r1.2.take l ++ List.replicate (l - r1.2.length) 0
      match lookupA users name with
      | some _ => ⟨2, false, [.startSession name]⟩
      | none => ⟨2, true, [.sendDisconnect]⟩
    else ⟨2, false, []⟩
  else ⟨state, false, []⟩

/-- Claim C3 counterexample: a well-formed handshake packet with
    next_state 3 (neither 1 nor 2) does not close the connection: the state
    simply becomes 3 and the read loop keeps running. -/
theorem handshake_other_state_counterexample :
    (processPacket [] [0, 133, 6, 0, 0, 0, 3] 0).closed = false
    ∧ (processPacket [] [0, 133, 6, 0, 0, 0, 3] 0).state = 3
    ∧ (3 : Nat) ≠ 1 ∧ (3 : Nat) ≠ 2 := by
  refine ⟨by decide, by decide, by decide, by decide⟩

/-- Claim C3 (amended): in the Handshake state a packet with id 0 sets the
    connection state to whatever next_state value the payload carries, so 1
    yields Status and 2 yields Login; for every other value the connection
    is left open in that numeric state, which matches no handler, rather
    than being closed. -/
theorem handshake_sets_next_state (users : List (List Nat × List Nat))
    (pv ns : Nat) (addr portB : List Nat)
    (hpv : pv < 2 ^ 35) (hns : ns < 2 ^ 35) (haddr : addr.length < 2 ^ 35)
    (hport : portB.length = 2) :
    processPacket users
      (writeVarIntNat 0 ++ (writeVarIntNat pv ++ (writeVarIntNat addr.length
        ++ (addr ++ (portB ++ writeVarIntNat ns))))) 0
      = ⟨ns, false, []⟩ := by
  have h0 := readVarIntGo_write (n := 0) (by norm_num)
    (writeVarIntNat pv ++ (writeVarIntNat addr.length ++ (addr ++ (portB ++ writeVarIntNat ns))))
  have h1 := readVarIntGo_write (n := pv) hpv
    (writeVarIntNat addr.length ++ (addr ++ (portB ++ writeVarIntNat ns)))
  have h2 := readVarIntGo_write (n := addr.length) haddr
    (addr ++ (portB ++ writeVarIntNat ns))
  have h3 := readVarIntGo_write (n := ns) hns []
  rw [List.append_nil] at h3
  simp only [processPacket, h0, h1, h2, Option.getD_some, List.drop_left]
  rw [List.drop_left' hport, h3]
  simp

/-- Witness for the amended C3: a handshake carrying next_state 1 puts the
    connection in the Status state without closing it. -/
theorem handshake_sets_next_state_witness :
    processPacket []
      (writeVarIntNat 0 ++ (writeVarIntNat 773 ++ (writeVarIntNat (List.length ([] : List Nat))
        ++ (([] : List Nat) ++ ([0, 0] ++ writeVarIntNat 1))))) 0
      = ⟨1, false, []⟩ :=
  handshake_sets_next_state [] 773 1 [] [0, 0] (by norm_num) (by norm_num)
    (by norm_num) (by norm_num)

/-! ## Authenticator, from initAuthMap in the handler source

    SHA-256 is a Go standard-library primitive external to this
    repository; the development abstracts it as a function parameter
    producing a 32-byte digest.  Go maps keyed by strings are modelled as
    association lists whose assignment operation overwrites the entry with
    the same key, exactly as a Go map assignment does. -/

inductive PwEntry
  | plain (pwd : List Nat)
  | withNick (pwd nick : List Nat)
  deriving DecidableEq

def entryPwd : PwEntry → List Nat
  | .plain p => p
  | .withNick p _ => p

/-- One lower-case hexadecimal digit, as its ASCII code. -/
def hexDigitCode (n : Nat) : Nat := if n < 10 then 48 + n else 87 + n

/-- hex.EncodeToString: every byte becomes two lower-case hex digits. -/
def hexEncodeBytes (bs : List Nat) : List Nat :=
  bs.flatMap (fun b => [hexDigitCode (b / 16), hexDigitCode (b % 16)])

/-- The ASCII codes of the literal Player. -/
def playerBytes : List Nat := [80, 108, 97, 121, 101, 114]

/-- The expected username: Player followed by the first 8 hex characters of
    the digest of the password. -/
def deriveId (hash : List Nat → List Nat) (pwd : List Nat) : List Nat :=
  playerBytes ++ (hexEncodeBytes (hash pwd)).take 8

/-- Go map assignment on an association list: replace the entry with this
    key if present, otherwise append a new entry. -/
def setA {α β : Type} [DecidableEq α] : List (α × β) → α → β → List (α × β)
  | [], k, v => [(k, v)]
  | (k2, v2) :: rest, k, v =>
    if k = k2 then (k, v) :: rest else (k2, v2) :: setA rest k v

structure AuthMaps where
  validUsers : List (List Nat × List Nat)
  nicknameMap : List (List Nat × List Nat)
  deriving DecidableEq

def hashAndRegister (hash : List Nat → List Nat) (st : AuthMaps)
    (pwd nick : List Nat) : AuthMaps :=
  { validUsers := setA st.validUsers (deriveId hash pwd) pwd
    nicknameMap := if nick ≠ [] then setA st.nicknameMap nick pwd else st.nicknameMap }

def registerEntry (hash : List Nat → List Nat) (st : AuthMaps) : PwEntry → AuthMaps
  | .plain pwd => hashAndRegister hash st pwd []
  | .withNick pwd nick => hashAndRegister hash st pwd nick

def initAuthMap (hash : List Nat → List Nat) (entries : List PwEntry) : AuthMaps :=
  entries.foldl (registerEntry hash) ⟨[], []⟩

/-- A concrete stand-in digest function used by witnesses. -/
def hash0 : List Nat → List Nat := fun _ => List.replicate 32 0

theorem lookupA_setA {α β : Type} [DecidableEq α] (m : List (α × β)) (k : α)
    (v : β) (key : α) :
    lookupA (setA m k v) key = if key = k then some v else lookupA m key := by
  induction m with
  | nil =>
    by_cases hkey : key = k <;> simp [setA, lookupA, hkey]
  | cons p rest ih =>
    obtain ⟨k2, v2⟩ := p
    by_cases hk : k = k2
    · subst hk
      by_cases hkey : key = k <;> simp [setA, lookupA, hkey]
    · simp only [setA, if_neg hk, lookupA]
      by_cases hkey2 : key = k2
      · subst hkey2
        have hne : ¬ key = k := fun hc => hk hc.symm
        simp [lookupA, hne]
      · simp [hkey2, ih]

/-- The secret stored for an identifier is the LAST configured entry whose
    derived identifier is that key. -/
def lastSecretForId (hash : List Nat → List Nat) (entries : List PwEntry)
    (key : List Nat) : Option (List Nat) :=
  (entries.reverse.map entryPwd).find? (fun p => decide (deriveId hash p = key))

def entryNickPair : PwEntry → Option (List Nat × List Nat)
  | .plain _ => none
  | .withNick pwd nick => if nick = [] then none else some (nick, pwd)

/-- The secret stored for a nickname is the LAST configured entry carrying
    that non-empty nickname. -/
def lastSecretForNick (entries : List PwEntry) (key : List Nat) :
    Option (List Nat) :=
  (((entries.filterMap entryNickPair).reverse).find?
    (fun q => decide (q.1 = key))).map (fun q => q.2)

theorem lookupA_register_validUsers (hash : List Nat → List Nat)
    (st : AuthMaps) (e : PwEntry) (key : List Nat) :
    lookupA (registerEntry hash st e).validUsers key
      = if key = deriveId hash (entryPwd e) then some (entryPwd e)
        else lookupA st.validUsers key := by
  cases e <;> simp [registerEntry, hashAndRegister, entryPwd, lookupA_setA]

theorem lastSecretForId_cons (hash : List Nat → List Nat) (e : PwEntry)
    (es : List PwEntry) (key : List Nat) :
    lastSecretForId hash (e :: es) key
      = (lastSecretForId hash es key).or
          (if deriveId hash (entryPwd e) = key then some (entryPwd e) else none) := by
  simp only [lastSecretForId, List.reverse_cons, List.map_append, List.map_cons,
    List.map_nil, List.find?_append]
  congr 1
  by_cases hd : deriveId hash (entryPwd e) = key <;> simp [List.find?, hd]

theorem lookupA_initAuth_go (hash : List Nat → List Nat) :
    ∀ (entries : List PwEntry) (st : AuthMaps) (key : List Nat),
    lookupA (entries.foldl (registerEntry hash) st).validUsers key
      = (lastSecretForId hash entries key).or (lookupA st.validUsers key) := by
  intro entries
  induction entries with
  | nil =>
    intro st key
    simp [lastSecretForId, Option.none_or]
  | cons e es ih =>
    intro st key
    rw [List.foldl_cons, ih, lastSecretForId_cons, Option.or_assoc]
    congr 1
    rw [lookupA_register_validUsers]
    by_cases hd : deriveId hash (entryPwd e) = key
    · rw [if_pos hd, if_pos hd.symm]
      rfl
    · rw [if_neg hd, if_neg (fun hc => hd hc.symm)]
      rfl

theorem lookupA_register_nicknameMap (hash : List Nat → List Nat)
    (st : AuthMaps) (e : PwEntry) (key : List Nat) :
    lookupA (registerEntry hash st e).nicknameMap key
      = (Option.map (fun q => q.2)
          ((entryNickPair e).filter (fun q => decide (q.1 = key)))).or
        (lookupA st.nicknameMap key) := by
  cases e with
  | plain pwd => simp [registerEntry, hashAndRegister, entryNickPair, Option.none_or]
  | withNick pwd nick =>
    by_cases hnil : nick = []
    · subst hnil
      simp [registerEntry, hashAndRegister, entryNickPair, Option.none_or]
    · simp only [registerEntry, hashAndRegister, if_pos hnil, entryNickPair,
        if_neg hnil, lookupA_setA]
      by_cases hkey : key = nick
      · subst hkey
        simp [Option.filter, Option.or]
      · have hne : ¬ nick = key := fun hc => hkey hc.symm
        simp [hkey, hne, Option.filter, Option.none_or]

theorem lastSecretForNick_cons (e : PwEntry) (es : List PwEntry)
    (key : List Nat) :
    lastSecretForNick (e :: es) key
      = (lastSecretForNick es key).or
          (Option.map (fun q => q.2)
            ((entryNickPair e).filter (fun q => decide (q.1 = key)))) := by
  have hmapor : ∀ (a b : Option (List Nat × List Nat)),
      Option.map (fun q : List Nat × List Nat => q.2) (a.or b)
        = (Option.map (fun q : List Nat × List Nat => q.2) a).or
          (Option.map (fun q : List Nat × List Nat => q.2) b) := by
    intro a b
    cases a <;> rfl
  simp only [lastSecretForNick, List.filterMap_cons]
  cases he : entryNickPair e with
  | none => simp [Option.or_none]
  | some q =>
    simp only [List.reverse_cons, List.find?_append, hmapor]
    congr 1
    by_cases hq : q.1 = key <;> simp [List.find?, hq, Option.filter]

theorem lookupA_initAuth_nick_go (hash : List Nat → List Nat) :
    ∀ (entries : List PwEntry) (st : AuthMaps) (key : List Nat),
    lookupA (entries.foldl (registerEntry hash) st).nicknameMap key
      = (lastSecretForNick entries key).or (lookupA st.nicknameMap key) := by
  intro entries
  induction entries with
  | nil =>
    intro st key
    simp [lastSecretForNick, Option.none_or]
  | cons e es ih =>
    intro st key
    rw [List.foldl_cons, ih, lastSecretForNick_cons, Option.or_assoc]
    congr 1
    exact lookupA_register_nicknameMap hash st e key

theorem lookupA_initAuth_validUsers (hash : List Nat → List Nat)
    (entries : List PwEntry) (key : List Nat) :
    lookupA (initAuthMap hash entries).validUsers key
      = lastSecretForId hash entries key := by
  rw [initAuthMap, lookupA_initAuth_go]
  simp [lookupA, Option.or_none]

theorem lookupA_initAuth_nicknameMap (hash : List Nat → List Nat)
    (entries : List PwEntry) (key : List Nat) :
    lookupA (initAuthMap hash entries).nicknameMap key
      = lastSecretForNick entries key := by
  rw [initAuthMap, lookupA_initAuth_nick_go]
  simp [lookupA, Option.or_none]

/-- Claim C2 counterexample: a configuration listing the same secret twice
    (so both entries derive the same identifier) produces exactly the same
    authenticator state as listing it once, with a single table entry:
    initAuthMap silently keeps one colliding entry and signals no error, so
    startup proceeds instead of exiting. -/
theorem duplicate_secret_counterexample :
    initAuthMap hash0 [PwEntry.plain [97], PwEntry.plain [97]]
      = initAuthMap hash0 [PwEntry.plain [97]]
    ∧ (initAuthMap hash0 [PwEntry.plain [97], PwEntry.plain [97]]).validUsers.length = 1 := by
  refine ⟨by decide, by decide⟩

/-- Claim C2 (amended): initAuthMap performs no duplicate detection and
    never fails; when several configured entries share a derived identifier
    or a nickname, the table silently keeps only the last such entry:
    every lookup returns the most recently configured matching secret. -/
theorem init_auth_last_wins (hash : List Nat → List Nat)
    (entries : List PwEntry) (key : List Nat) :
    lookupA (initAuthMap hash entries).validUsers key
      = lastSecretForId hash entries key
    ∧ lookupA (initAuthMap hash entries).nicknameMap key
      = lastSecretForNick entries key :=
  ⟨lookupA_initAuth_validUsers hash entries key,
   lookupA_initAuth_nicknameMap hash entries key⟩

theorem hexEncodeBytes_length (bs : List Nat) :
    (hexEncodeBytes bs).length = 2 * bs.length := by
  induction bs with
  | nil => rfl
  | cons b bs ih => simp [hexEncodeBytes] at ih ⊢; omega

theorem hexEncodeBytes_mem {bs : List Nat} (hb : ∀ b ∈ bs, b < 256) :
    ∀ c ∈ hexEncodeBytes bs, (48 ≤ c ∧ c ≤ 57) ∨ (97 ≤ c ∧ c ≤ 102) := by
  intro c hc
  rw [hexEncodeBytes, List.mem_flatMap] at hc
  obtain ⟨b, hbmem, hcmem⟩ := hc
  have hb256 := hb b hbmem
  have hd : c = hexDigitCode (b / 16) ∨ c = hexDigitCode (b % 16) := by
    simpa using hcmem
  have hrange : ∀ d : Nat, d < 16 →
      (48 ≤ hexDigitCode d ∧ hexDigitCode d ≤ 57)
      ∨ (97 ≤ hexDigitCode d ∧ hexDigitCode d ≤ 102) := by
    intro d hd16
    unfold hexDigitCode
    split <;> omega
  rcases hd with h | h <;> subst h
  · exact hrange _ (by omega)
  · exact hrange _ (by omega)

/-- Claim C4: the derived identifier is the 6 ASCII bytes of Player
    followed by the first 8 lower-case hex digits of the 32-byte digest,
    hence exactly 14 ASCII bytes whose tail consists of hex digits; and the
    authenticator table maps exactly these identifiers to configured
    secrets: every configured entry is reachable under its derived
    identifier, and every stored pair consists of a configured secret
    keyed by its own derived identifier. -/
theorem derive_id_spec (hash : List Nat → List Nat)
    (hlen : ∀ p, (hash p).length = 32)
    (hbytes : ∀ p b, b ∈ hash p → b < 256)
    (pwd : List Nat) (entries : List PwEntry) :
    (deriveId hash pwd).length = 14
    ∧ (deriveId hash pwd).take 6 = playerBytes
    ∧ (∀ c ∈ (deriveId hash pwd).drop 6, (48 ≤ c ∧ c ≤ 57) ∨ (97 ≤ c ∧ c ≤ 102))
    ∧ (∀ e ∈ entries,
        ∃ q, lookupA (initAuthMap hash entries).validUsers
              (deriveId hash (entryPwd e)) = some q
          ∧ deriveId hash q = deriveId hash (entryPwd e))
    ∧ (∀ key q, lookupA (initAuthMap hash entries).validUsers key = some q →
        deriveId hash q = key ∧ ∃ e ∈ entries, entryPwd e = q) := by
  have hlen14 : (deriveId hash pwd).length = 14 := by
    rw [deriveId, List.length_append, List.length_take, hexEncodeBytes_length,
      hlen pwd]
    rfl
  have htake : (deriveId hash pwd).take 6 = playerBytes := by
    rw [deriveId]
    exact List.take_left' rfl
  have hdrop : ∀ c ∈ (deriveId hash pwd).drop 6,
      (48 ≤ c ∧ c ≤ 57) ∨ (97 ≤ c ∧ c ≤ 102) := by
    rw [deriveId, List.drop_left' (show playerBytes.length = 6 from rfl)]
    intro c hc
    exact hexEncodeBytes_mem (hbytes pwd) c (List.mem_of_mem_take hc)
  refine ⟨hlen14, htake, hdrop, ?_, ?_⟩
  · intro e he
    have hmain := lookupA_initAuth_validUsers hash entries (deriveId hash (entryPwd e))
    have hsome : (lastSecretForId hash entries (deriveId hash (entryPwd e))).isSome := by
      rw [lastSecretForId, List.find?_isSome]
      exact ⟨entryPwd e, by
        rw [List.mem_map]
        exact ⟨e, by rw [List.mem_reverse]; exact he, rfl⟩, by simp⟩
    obtain ⟨q, hq⟩ := Option.isSome_iff_exists.mp hsome
    have hpq : deriveId hash q = deriveId hash (entryPwd e) := by
      have := List.find?_some hq
      simpa using this
    exact ⟨q, by rw [hmain, hq], hpq⟩
  · intro key q hq
    have hmain := lookupA_initAuth_validUsers hash entries key
    rw [hmain] at hq
    have hpq : deriveId hash q = key := by
      have := List.find?_some hq
      simpa using this
    have hqmem : q ∈ entries.reverse.map entryPwd := List.mem_of_find?_eq_some hq
    rw [List.mem_map] at hqmem
    obtain ⟨e, he, hpe⟩ := hqmem
    exact ⟨hpq, e, List.mem_reverse.mp he, hpe⟩

/-- Witness for C4 at a one-entry configuration with the stand-in digest. -/
theorem derive_id_spec_witness :
    (deriveId hash0 [104]).length = 14
    ∧ (deriveId hash0 [104]).take 6 = playerBytes
    ∧ ∃ q, lookupA (initAuthMap hash0 [PwEntry.plain [104]]).validUsers
          (deriveId hash0 (entryPwd (PwEntry.plain [104]))) = some q
        ∧ deriveId hash0 q = deriveId hash0 (entryPwd (PwEntry.plain [104])) := by
  have hlen : ∀ p, (hash0 p).length = 32 := fun p => by simp [hash0]
  have hbytes : ∀ p b, b ∈ hash0 p → b < 256 := by
    intro p b hb
    simp [hash0] at hb
    omega
  have h := derive_id_spec hash0 hlen hbytes [104] [PwEntry.plain [104]]
  exact ⟨h.1, h.2.1, h.2.2.2.1 (PwEntry.plain [104]) (by simp)⟩

/-! ## Packed heightmap, from createPackedHeights in the handler source

    Go: value := y AND 0x1FF (the low 9 bits, i.e. the remainder modulo
    512, non-negative); for i in 0..255 the loop ORs value shifted left by
    9*(i mod 7) into long number i/7.  All fields live in bits 0..62 of
    their int64, so the int64 entries are non-negative and modelled as
    Nat. -/

def packStep (v : Nat) (data : List Nat) (i : Nat) : List Nat :=
  data.set (i / 7) ((data.getD (i / 7) 0) ||| (v <<< ((i % 7) * 9)))

def createPackedHeights (y : Int) : List Nat :=
  (List.range 256).foldl (packStep ((y % 512).toNat)) (List.replicate 37 0)

/-- The value v repeated in k consecutive 9-bit fields from bit 0 up. -/
def repHeights (v : Nat) : Nat → Nat
  | 0 => 0
  | k + 1 => repHeights v k + v * 512 ^ k

theorem repHeights_lt {v : Nat} (hv : v < 512) : ∀ k, repHeights v k < 512 ^ k := by
  intro k
  induction k with
  | zero => simp [repHeights]
  | succ k ih =>
    rw [repHeights, pow_succ]
    have h1 : v * 512 ^ k ≤ 511 * 512 ^ k := Nat.mul_le_mul_right _ (by omega)
    have h2 : (0:Nat) < 512 ^ k := pow_pos (by norm_num) k
    nlinarith

theorem repHeights_add (v t k : Nat) :
    repHeights v (t + k) = repHeights v t + 512 ^ t * repHeights v k := by
  induction k with
  | zero => simp [repHeights]
  | succ k ih =>
    show repHeights v ((t + k) + 1) = _
    rw [repHeights, ih, repHeights, pow_add]
    ring

theorem packFold_length (v : Nat) :
    ∀ (idxs : List Nat) (l : List Nat),
      (idxs.foldl (packStep v) l).length = l.length := by
  intro idxs
  induction idxs with
  | nil => intro l; rfl
  | cons i idxs ih =>
    intro l
    rw [List.foldl_cons, ih]
    simp [packStep]

theorem getD_replicate_zero : ∀ (n j : Nat), (List.replicate n (0:Nat)).getD j 0 = 0 := by
  intro n
  induction n with
  | zero => intro j; simp [List.getD]
  | succ n ih =>
    intro j
    rw [List.replicate_succ]
    cases j with
    | zero => rfl
    | succ j => simp [List.getD_cons_succ, ih j]

theorem packFold_getD (v : Nat) (hv : v < 512) :
    ∀ n, n ≤ 256 → ∀ j, j < 37 →
      ((List.range n).foldl (packStep v) (List.replicate 37 0)).getD j 0
        = repHeights v (min 7 (n - 7 * j)) := by
  intro n
  induction n with
  | zero =>
    intro _ j hj
    rw [List.range_zero, List.foldl_nil]
    have hmin : min 7 (0 - 7 * j) = 0 := by omega
    rw [hmin, getD_replicate_zero]
    rfl
  | succ n ih =>
    intro hn j hj
    rw [List.range_succ, List.foldl_append, List.foldl_cons, List.foldl_nil]
    have hlen : ((List.range n).foldl (packStep v) (List.replicate 37 0)).length = 37 := by
      rw [packFold_length]
      simp
    by_cases hjq : j = n / 7
    · subst hjq
      have hq37 : n / 7 < 37 := by omega
      have hprev := ih (by omega) (n / 7) hq37
      rw [packStep, List.getD_eq_getElem?_getD,
        List.getElem?_set_self (by rw [hlen]; omega), Option.getD_some, hprev]
      have hmin : min 7 (n - 7 * (n / 7)) = n % 7 := by omega
      rw [hmin]
      have h2 : (512:Nat) ^ (n % 7) = 2 ^ ((n % 7) * 9) := by
        rw [show (512:Nat) = 2 ^ 9 by norm_num, ← pow_mul]
        congr 1
        omega
      have hbound : repHeights v (n % 7) < 2 ^ ((n % 7) * 9) := by
        rw [← h2]
        exact repHeights_lt hv (n % 7)
      rw [lor_shiftLeft_eq_add hbound]
      have hmin2 : min 7 (n + 1 - 7 * (n / 7)) = n % 7 + 1 := by omega
      rw [hmin2, repHeights, ← h2]
      ring
    · have hprev := ih (by omega) j hj
      rw [packStep, List.getD_eq_getElem?_getD,
        List.getElem?_set_ne (fun hc => hjq hc.symm),
        ← List.getD_eq_getElem?_getD, hprev]
      congr 1
      omega

theorem createPackedHeights_getD {v : Int} (h0 : 0 ≤ v) (h1 : v < 512) (j : Nat)
    (hj : j < 37) :
    (createPackedHeights v).getD j 0
      = repHeights (v.toNat) (min 7 (256 - 7 * j)) := by
  rw [createPackedHeights]
  have hvv : (v % 512).toNat = v.toNat := by omega
  rw [hvv]
  exact packFold_getD (v.toNat) (by omega) 256 (by omega) j hj

theorem repHeights_decode {v : Nat} (hv : v < 512) (t c : Nat) (htc : t < c) :
    repHeights v c / 2 ^ (t * 9) % 512 = v := by
  obtain ⟨s, rfl⟩ : ∃ s, c = t + (s + 1) := ⟨c - t - 1, by omega⟩
  rw [repHeights_add]
  have hp : (512:Nat) ^ t = 2 ^ (t * 9) := by
    rw [show (512:Nat) = 2 ^ 9 by norm_num, ← pow_mul, Nat.mul_comm]
  rw [hp, Nat.add_mul_div_left _ _ (pow_pos (by norm_num) _),
    Nat.div_eq_of_lt (by rw [← hp]; exact repHeights_lt hv t), Nat.zero_add]
  have hs : repHeights v (s + 1) = v + 512 * repHeights v s := by
    have := repHeights_add v 1 s
    rw [show (1 + s) = s + 1 by omega] at this
    rw [this]
    simp [repHeights]
  rw [hs, Nat.add_mul_mod_self_left, Nat.mod_eq_of_lt hv]

/-- Claim C7: for 0 ≤ v < 512, every one of the 256 packed positions
    decodes back to v (long number i/7, 9-bit field at bit offset
    9*(i mod 7)), and the bits beyond the used fields are zero: bit 63 of
    each of the first 36 longs, and bits 36 and up of the last long. -/
theorem packed_heights_decode (v : Int) (h0 : 0 ≤ v) (h1 : v < 512) :
    (∀ i, i < 256 →
      (((createPackedHeights v).getD (i / 7) 0) >>> ((i % 7) * 9)) &&& 511
        = v.toNat)
    ∧ (∀ j, j < 36 → ((createPackedHeights v).getD j 0) >>> 63 = 0)
    ∧ ((createPackedHeights v).getD 36 0) >>> 36 = 0 := by
  have hvn : v.toNat < 512 := by omega
  refine ⟨?_, ?_, ?_⟩
  · intro i hi
    rw [createPackedHeights_getD h0 h1 (i / 7) (by omega)]
    have hand : ∀ x : Nat, x &&& 511 = x % 512 := by
      intro x
      have h := Nat.and_pow_two_sub_one_eq_mod x 9
      norm_num at h
      exact h
    rw [Nat.shiftRight_eq_div_pow, hand]
    have hc : min 7 (256 - 7 * (i / 7)) = if i / 7 = 36 then 4 else 7 := by
      split <;> omega
    rw [hc]
    split
    · exact repHeights_decode hvn (i % 7) 4 (by omega)
    · exact repHeights_decode hvn (i % 7) 7 (by omega)
  · intro j hj
    rw [createPackedHeights_getD h0 h1 j (by omega), Nat.shiftRight_eq_div_pow]
    have hmin : min 7 (256 - 7 * j) = 7 := by omega
    rw [hmin]
    apply Nat.div_eq_of_lt
    calc repHeights v.toNat 7 < 512 ^ 7 := repHeights_lt hvn 7
      _ = 2 ^ 63 := by norm_num
  · rw [createPackedHeights_getD h0 h1 36 (by omega), Nat.shiftRight_eq_div_pow]
    have hmin : min 7 (256 - 7 * 36) = 4 := by norm_num
    rw [hmin]
    apply Nat.div_eq_of_lt
    calc repHeights v.toNat 4 < 512 ^ 4 := repHeights_lt hvn 4
      _ = 2 ^ 36 := by norm_num

/-- Witness for C7 at the value 64 (the constant the server uses) and
    position 10. -/
theorem packed_heights_decode_witness :
    (((createPackedHeights 64).getD (10 / 7) 0) >>> ((10 % 7) * 9)) &&& 511
      = (64 : Int).toNat
    ∧ ((createPackedHeights 64).getD 36 0) >>> 36 = 0 :=
  ⟨(packed_heights_decode 64 (by norm_num) (by norm_num)).1 10 (by norm_num),
   (packed_heights_decode 64 (by norm_num) (by norm_num)).2.2⟩

/-! ## Motion simulation, from the motion source

    Float64 arithmetic is modelled over the rationals.  The library calls
    math.Sin and math.Cos are oracle function parameters and every call of
    the random source consumes the next value of an oracle draw list, so
    all bound statements hold for every possible value of those oracles.
    goPi is the exact rational value of the float64 constant math.Pi. -/

def goPi : ℚ := 2 + 2570638124657944 / 2 ^ 51

structure MotionGenerator where
  X : ℚ
  Y : ℚ
  Z : ℚ
  Angle : ℚ
  Speed : ℚ

/-- NewMotionGenerator: getSecureRandomInt(2000) is a random byte reduced
    modulo 2000 (bytes b1, b2); getRandomFloat values are the oracles r1,
    r2.  Go: X and Z random in the field, Y 95, Angle a random turn of the
    full circle, Speed between 2 and 5. -/
def NewMotionGenerator (b1 b2 : Nat) (r1 r2 : ℚ) : MotionGenerator :=
  { X := ((b1 % 256) % 2000 : Nat)
    Y := 95
    Z := ((b2 % 256) % 2000 : Nat)
    Angle := r1 * 2 * goPi
    Speed := 2 + r2 * 3 }

def generateTerrainHeight (sinF cosF : ℚ → ℚ) (x z : ℚ) : ℚ :=
  85 + 25 / 2
    + (sinF (x / 100) * 5 + cosF (z / 100) * 5)
    + (sinF (x / 200) * 3 + cosF (z / 200) * 3)
    + sinF ((x + z) / 50) * 2

/-- One Update step.  The oracle draws are consumed in call order exactly
    as the Go source calls getRandomFloat: turn, sharp-turn test, sharp
    turn amount (only when taken), speed test, new speed (only when
    taken). -/
def motionUpdate (sinF cosF : ℚ → ℚ) (m : MotionGenerator)
    (draws : List ℚ) : MotionGenerator :=
  let a1 := draws.headD 0
  let d1 := draws.tail
  let angle0 := m.Angle + (a1 - 1/2) * (3/10)
  let a2 := d1.headD 0
  let d2 := d1.tail
  let sharp := a2 < 1/20
  let angle1 := if sharp then angle0 + (d2.headD 0 - 1/2) * goPi else angle0
  let d3 := if sharp then d2.tail else d2
  let a4 := d3.headD 0
  let d4 := d3.tail
  let speed := if a4 < 1/10 then 2 + d4.headD 0 * 3 else m.Speed
  let x0 := m.X + cosF angle1 * speed
  let z0 := m.Z + sinF angle1 * speed
  let x1 := if x0 < 0 then 0 else if x0 > 2000 then 2000 else x0
  let angle2 := if x0 < 0 then goPi - angle1
    else if x0 > 2000 then goPi - angle1 else angle1
  let z1 := if z0 < 0 then 0 else if z0 > 2000 then 2000 else z0
  let angle3 := if z0 < 0 then -angle2
    else if z0 > 2000 then -angle2 else angle2
  let terrain := generateTerrainHeight sinF cosF x1 z1
  let y0 := m.Y + (terrain - m.Y) * (2/10)
  let y1 := if y0 < 85 then 85 else if y0 > 110 then 110 else y0
  { X := x1, Y := y1, Z := z1, Angle := angle3, Speed := speed }

def motionInBounds (m : MotionGenerator) : Prop :=
  0 ≤ m.X ∧ m.X ≤ 2000 ∧ 0 ≤ m.Z ∧ m.Z ≤ 2000 ∧ 85 ≤ m.Y ∧ m.Y ≤ 110

theorem clamp_mem (lo hi q : ℚ) (h : lo ≤ hi) :
    lo ≤ (if q < lo then lo else if q > hi then hi else q)
    ∧ (if q < lo then lo else if q > hi then hi else q) ≤ hi := by
  split_ifs with h1 h2 <;> constructor <;> linarith

theorem motionUpdate_inBounds (sinF cosF : ℚ → ℚ) (m : MotionGenerator)
    (draws : List ℚ) :
    motionInBounds (motionUpdate sinF cosF m draws) := by
  simp only [motionUpdate, motionInBounds]
  refine ⟨?_, ?_, ?_, ?_, ?_, ?_⟩
  · exact (clamp_mem 0 2000 _ (by norm_num)).1
  · exact (clamp_mem 0 2000 _ (by norm_num)).2
  · exact (clamp_mem 0 2000 _ (by norm_num)).1
  · exact (clamp_mem 0 2000 _ (by norm_num)).2
  · exact (clamp_mem 85 110 _ (by norm_num)).1
  · exact (clamp_mem 85 110 _ (by norm_num)).2

theorem newMotion_inBounds (b1 b2 : Nat) (r1 r2 : ℚ) :
    motionInBounds (NewMotionGenerator b1 b2 r1 r2) := by
  unfold NewMotionGenerator motionInBounds
  refine ⟨?_, ?_, ?_, ?_, ?_, ?_⟩
  · positivity
  · show ((b1 % 256 % 2000 : Nat) : ℚ) ≤ 2000
    exact_mod_cast (by omega : b1 % 256 % 2000 ≤ 2000)
  · positivity
  · show ((b2 % 256 % 2000 : Nat) : ℚ) ≤ 2000
    exact_mod_cast (by omega : b2 % 256 % 2000 ≤ 2000)
  · norm_num
  · norm_num

theorem motion_foldl_inBounds (sinF cosF : ℚ → ℚ) :
    ∀ (ds : List (List ℚ)) (m : MotionGenerator), motionInBounds m →
      motionInBounds (ds.foldl (motionUpdate sinF cosF) m) := by
  intro ds
  induction ds with
  | nil => intro m hm; exact hm
  | cons d ds ih =>
    intro m _
    rw [List.foldl_cons]
    exact ih _ (motionUpdate_inBounds sinF cosF m d)

/-- Claim C9: starting from any freshly constructed MotionGenerator, after
    any finite sequence of Update calls (each with arbitrary random draws
    and arbitrary values of the trigonometric oracles) the position stays
    within x in 0..2000, z in 0..2000 and y in 85..110. -/
theorem motion_stays_in_bounds (sinF cosF : ℚ → ℚ) (b1 b2 : Nat) (r1 r2 : ℚ)
    (updates : List (List ℚ)) :
    motionInBounds
      (updates.foldl (motionUpdate sinF cosF) (NewMotionGenerator b1 b2 r1 r2)) :=
  motion_foldl_inBounds sinF cosF updates _ (newMotion_inBounds b1 b2 r1 r2)

/-! ## Disguised transport, from MinecraftConn.Write in the handler source

    The AES-256-GCM cipher for the session key SHA-256(secret) is a Go
    standard-library primitive external to this repository; it is
    abstracted as a cipher object with the round-trip and
    ciphertext-length laws that AES-GCM satisfies (12-byte nonces, 16-byte
    tags).  The peer that parses and decrypts chunk-data payloads is not
    part of this repository either, so the parser below is modelled from
    the layout in the specification. -/

structure AEAD where
  nonceSize : Nat
  sealB : List Nat → List Nat → List Nat
  openB : List Nat → List Nat → Option (List Nat)
  sealB_openB : ∀ n p, openB n (sealB n p) = some p
  sealB_length : ∀ n p, (sealB n p).length = p.length + 16

/-- Truncation toward zero of a float value, as Go's int conversion. -/
def goTruncQ (q : ℚ) : Int := q.num.tdiv (q.den : Int)

/-- binary.Write of an int32 in big-endian order: four bytes of the two's
    complement pattern. -/
def writeInt32 (v : Int) : List Nat :=
  [(v % 2 ^ 32).toNat / 2 ^ 24 % 256, (v % 2 ^ 32).toNat / 2 ^ 16 % 256,
   (v % 2 ^ 32).toNat / 2 ^ 8 % 256, (v % 2 ^ 32).toNat % 256]

/-- WriteLong on the non-negative packed-heights values: eight bytes in
    big-endian order. -/
def writeLongN (n : Nat) : List Nat :=
  [n / 2 ^ 56 % 256, n / 2 ^ 48 % 256, n / 2 ^ 40 % 256, n / 2 ^ 32 % 256,
   n / 2 ^ 24 % 256, n / 2 ^ 16 % 256, n / 2 ^ 8 % 256, n % 256]

/-- The ASCII bytes of MOTION_BLOCKING. -/
def motionBlockingBytes : List Nat :=
  [77, 79, 84, 73, 79, 78, 95, 66, 76, 79, 67, 75, 73, 78, 71]

/-- WriteStringNBT: a big-endian int16 length prefix, then the bytes. -/
def nbtStringBytes (s : List Nat) : List Nat :=
  [s.length / 256 % 256, s.length % 256] ++ s

/-- WritePacket: the body is the VarInt packet id followed by the data,
    and the frame prefixes the body with its VarInt length. -/
def writePacketBytes (packetID : Nat) (data : List Nat) : List Nat :=
  writeVarIntNat (writeVarIntNat packetID ++ data).length
    ++ (writeVarIntNat packetID ++ data)

/-- The chunk-data packet payload built by MinecraftConn.Write, in source
    order: chunk coordinates, NBT compound prefix, the MOTION_BLOCKING
    long-array tag with 37 packed longs of height 64, TAG_End, the VarInt
    length of the encrypted body followed by the body, then seven VarInt
    zero fields. -/
def chunkDataPayload (cx cz : Int) (encrypted : List Nat) : List Nat :=
  writeInt32 cx ++ writeInt32 cz
    ++ [10] ++ [0, 0]
    ++ [12] ++ nbtStringBytes motionBlockingBytes ++ writeInt32 37
    ++ ((createPackedHeights 64).map writeLongN).flatten
    ++ [0]
    ++ writeVarIntNat encrypted.length ++ encrypted
    ++ writeVarIntNat 0 ++ writeVarIntNat 0 ++ writeVarIntNat 0 ++ writeVarIntNat 0
    ++ writeVarIntNat 0 ++ writeVarIntNat 0 ++ writeVarIntNat 0

/-- One call of MinecraftConn.Write: the motion snapshot, the plaintext
    argument and the random nonce the call draws. -/
structure WriteCall where
  mx : ℚ
  mz : ℚ
  plain : List Nat
  nonce : List Nat

/-- MinecraftConn.Write: Seal appends the ciphertext to the nonce passed
    as the destination buffer, the chunk coordinates are the truncated
    motion coordinates arithmetically shifted right by 4, and the result
    is framed as packet id 0x25 = 37. -/
def mcWrite (A : AEAD) (w : WriteCall) : List Nat :=
  writePacketBytes 37
    (chunkDataPayload (goTruncQ w.mx / 16) (goTruncQ w.mz / 16)
      (w.nonce ++ A.sealB w.nonce w.plain))

/-- Matching of an expected literal prefix: strip it or fail. -/
def stripPre (pre s : List Nat) : Option (List Nat) :=
  if s.take pre.length = pre then some (s.drop pre.length) else none

/-- The constant NBT header of every chunk payload: TAG_Compound with an
    empty name, the long-array tag with its MOTION_BLOCKING name, and the
    big-endian element count 37. -/
def chunkHdr : List Nat :=
  [10, 0, 0, 12] ++ nbtStringBytes motionBlockingBytes ++ writeInt32 37

/-- Modelled from the spec: the peer-side parser of one chunk-data packet
    payload.  It skips the 8 coordinate bytes, checks the NBT prefix, the
    MOTION_BLOCKING tag header, skips the 37 longs, checks TAG_End, reads
    the VarInt-prefixed encrypted body, checks the seven VarInt zero
    fields, splits off the nonce and opens the ciphertext. -/
def parseChunkPayload (A : AEAD) (s : List Nat) : Option (List Nat) :=
  if s.length < 8 then none
  else
    (stripPre chunkHdr (s.drop 8)).bind (fun s2 =>
      if s2.length < 296 then none
      else
        (stripPre [0] (s2.drop 296)).bind (fun s4 =>
          let r := readVarIntGo s4
          r.1.bind (fun elen =>
            if elen ≤ r.2.length then
              let enc := r.2.take elen
              if r.2.drop elen = [0, 0, 0, 0, 0, 0, 0] then
                if A.nonceSize ≤ enc.length then
                  A.openB (enc.take A.nonceSize) (enc.drop A.nonceSize)
                else none
              else none
            else none)))

/-- Modelled from the spec: parse one framed packet, requiring packet id
    0x25 = 37 (Chunk Data) and the payload layout above; returns the
    decrypted plaintext and the bytes after the frame. -/
def parseOneFrame (A : AEAD) (s : List Nat) : Option (List Nat × List Nat) :=
  let r := readVarIntGo s
  r.1.bind (fun len =>
    if len ≤ r.2.length then
      let rb := readVarIntGo (r.2.take len)
      rb.1.bind (fun pid =>
        if pid = 37 then
          (parseChunkPayload A rb.2).map (fun p => (p, r.2.drop len))
        else none)
    else none)

def parseStreamAux (A : AEAD) : Nat → List Nat → Option (List (List Nat))
  | _, [] => some []
  | 0, _ :: _ => none
  | fuel + 1, b :: s =>
    (parseOneFrame A (b :: s)).bind (fun pr =>
      (parseStreamAux A fuel pr.2).map (fun ps => pr.1 :: ps))

/-- Modelled from the spec: parse a whole emission stream as a sequence of
    framed chunk-data packets, returning their decrypted plaintexts in
    order. -/
def parseChunkStream (A : AEAD) (s : List Nat) : Option (List (List Nat)) :=
  parseStreamAux A s.length s

/-! ### Length bookkeeping for the emitted frame -/

theorem writeVarIntNat_small {n : Nat} (h : n < 128) : writeVarIntNat n = [n] := by
  rw [writeVarIntNat, dif_pos (by omega), Nat.mod_eq_of_lt h]

theorem writeInt32_length (v : Int) : (writeInt32 v).length = 4 := rfl

theorem createPackedHeights_length (y : Int) :
    (createPackedHeights y).length = 37 := by
  rw [createPackedHeights, packFold_length]
  simp

theorem heightsBlock_length :
    (((createPackedHeights 64).map writeLongN).flatten).length = 296 := by
  rw [List.length_flatten, List.map_map]
  have h1 : (List.length ∘ writeLongN) = fun _ : Nat => 8 := funext fun _ => rfl
  rw [h1, List.map_const', List.sum_replicate, createPackedHeights_length]
  norm_num

theorem chunkDataPayload_length (cx cz : Int) (enc : List Nat) :
    (chunkDataPayload cx cz enc).length
      = 337 + (writeVarIntNat enc.length).length + enc.length := by
  have h0 : writeVarIntNat 0 = [0] := writeVarIntNat_small (by norm_num)
  rw [chunkDataPayload, h0]
  simp only [List.length_append, heightsBlock_length, writeInt32_length]
  norm_num [nbtStringBytes, motionBlockingBytes]
  omega

theorem stripPre_append (pre t : List Nat) : stripPre pre (pre ++ t) = some t := by
  rw [stripPre, List.take_left, if_pos rfl, List.drop_left]

/-! ### The round trip of one Write call -/

theorem parseChunkPayload_mk (A : AEAD) (cx cz : Int) (nonce ct pt : List Nat)
    (h12 : nonce.length = A.nonceSize)
    (hopen : A.openB nonce ct = some pt)
    (hlen : (nonce ++ ct).length < 2 ^ 35) :
    parseChunkPayload A (chunkDataPayload cx cz (nonce ++ ct)) = some pt := by
  have h0 : writeVarIntNat 0 = [0] := writeVarIntNat_small (by norm_num)
  have hplen := chunkDataPayload_length cx cz (nonce ++ ct)
  rw [parseChunkPayload, if_neg (by omega)]
  have hshape : chunkDataPayload cx cz (nonce ++ ct)
      = (writeInt32 cx ++ writeInt32 cz) ++ (chunkHdr
          ++ (((createPackedHeights 64).map writeLongN).flatten
          ++ ([0] ++ (writeVarIntNat (nonce ++ ct).length ++ ((nonce ++ ct)
          ++ (writeVarIntNat 0 ++ (writeVarIntNat 0 ++ (writeVarIntNat 0
          ++ (writeVarIntNat 0 ++ (writeVarIntNat 0 ++ (writeVarIntNat 0
          ++ writeVarIntNat 0))))))))))) := by
    simp [chunkDataPayload, chunkHdr, List.append_assoc]
  rw [hshape]
  rw [List.drop_left' (show (writeInt32 cx ++ writeInt32 cz).length = 8 by
    simp [writeInt32_length])]
  rw [stripPre_append, Option.some_bind]
  rw [if_neg (by
    simp only [List.length_append, heightsBlock_length]
    omega)]
  rw [List.drop_left' heightsBlock_length, stripPre_append, Option.some_bind]
  rw [readVarIntGo_write (by omega)]
  simp only [Option.some_bind]
  rw [if_pos (by simp)]
  rw [List.take_left, List.drop_left]
  rw [if_pos (by rw [h0]; rfl)]
  rw [if_pos (by simp [h12])]
  rw [List.take_left' h12, List.drop_left' h12, hopen]

theorem parseOneFrame_writePacket (A : AEAD) (pl rest p : List Nat)
    (hlen : 1 + pl.length < 2 ^ 35)
    (hparse : parseChunkPayload A pl = some p) :
    parseOneFrame A (writePacketBytes 37 pl ++ rest) = some (p, rest) := by
  have h37 : writeVarIntNat 37 = [37] := writeVarIntNat_small (by norm_num)
  have hbl : ([37] ++ pl).length = 1 + pl.length := by
    rw [List.singleton_append, List.length_cons]
    omega
  rw [writePacketBytes, h37, hbl, List.append_assoc, parseOneFrame]
  rw [readVarIntGo_write (by omega)]
  simp only [Option.some_bind]
  rw [if_pos (by
    simp only [List.length_append, List.singleton_append, List.length_cons]
    omega)]
  rw [List.take_left' (by simpa using hbl), List.drop_left' (by simpa using hbl)]
  rw [show ([37] : List Nat) ++ pl = writeVarIntNat 37 ++ pl by rw [h37]]
  rw [readVarIntGo_write (by norm_num)]
  simp only [Option.some_bind]
  simp only [if_true]
  rw [hparse, Option.map_some']

theorem mcWrite_round (A : AEAD) (hA : A.nonceSize = 12) (w : WriteCall)
    (rest : List Nat) (hN : w.nonce.length = A.nonceSize)
    (hP : w.plain.length ≤ 2 ^ 30) :
    parseOneFrame A (mcWrite A w ++ rest) = some (w.plain, rest) := by
  have hct : (A.sealB w.nonce w.plain).length = w.plain.length + 16 :=
    A.sealB_length w.nonce w.plain
  have henc : (w.nonce ++ A.sealB w.nonce w.plain).length = 28 + w.plain.length := by
    rw [List.length_append, hct, hN, hA]
    omega
  have hvl : (writeVarIntNat (w.nonce ++ A.sealB w.nonce w.plain).length).length ≤ 5 := by
    apply writeVarIntNat_length 4
    norm_num
    omega
  have hpl := chunkDataPayload_length (goTruncQ w.mx / 16) (goTruncQ w.mz / 16)
    (w.nonce ++ A.sealB w.nonce w.plain)
  rw [mcWrite]
  apply parseOneFrame_writePacket
  · omega
  · exact parseChunkPayload_mk A _ _ w.nonce (A.sealB w.nonce w.plain) w.plain hN
      (by rw [A.sealB_openB]) (by omega)

/-! ### The whole emission stream -/

theorem mcWrite_ne_nil (A : AEAD) (w : WriteCall) : mcWrite A w ≠ [] := by
  rw [mcWrite, writePacketBytes]
  intro hc
  rw [List.append_eq_nil] at hc
  exact writeVarIntNat_ne_nil _ hc.1

theorem parseStreamAux_cons (A : AEAD) (fuel : Nat) (s : List Nat) (hs : s ≠ []) :
    parseStreamAux A (fuel + 1) s
      = (parseOneFrame A s).bind (fun pr =>
          (parseStreamAux A fuel pr.2).map (fun ps => pr.1 :: ps)) := by
  cases s with
  | nil => exact absurd rfl hs
  | cons b t => rfl

theorem parseStreamAux_writes (A : AEAD) (hA : A.nonceSize = 12) :
    ∀ (ws : List WriteCall) (fuel : Nat),
      (∀ w ∈ ws, w.nonce.length = A.nonceSize ∧ w.plain.length ≤ 2 ^ 30) →
      ws.length ≤ fuel →
      parseStreamAux A fuel ((ws.map (mcWrite A)).flatten)
        = some (ws.map WriteCall.plain) := by
  intro ws
  induction ws with
  | nil =>
    intro fuel _ _
    cases fuel <;> rfl
  | cons w ws ih =>
    intro fuel hws hlen
    obtain ⟨fuel, rfl⟩ : ∃ f, fuel = f + 1 :=
      ⟨fuel - 1, by simp at hlen; omega⟩
    rw [List.map_cons, List.flatten_cons]
    rw [parseStreamAux_cons A fuel _ (by
      intro hc
      rw [List.append_eq_nil] at hc
      exact mcWrite_ne_nil A w hc.1)]
    obtain ⟨hwN, hwP⟩ := hws w (by simp)
    rw [mcWrite_round A hA w _ hwN hwP, Option.some_bind]
    rw [ih fuel (fun x hx => hws x (by simp [hx])) (by simp at hlen; omega)]
    simp

theorem length_le_flatten_mcWrite (A : AEAD) (ws : List WriteCall) :
    ws.length ≤ ((ws.map (mcWrite A)).flatten).length := by
  induction ws with
  | nil => simp
  | cons w ws ih =>
    rw [List.map_cons, List.flatten_cons, List.length_append, List.length_cons]
    have hpos : 1 ≤ (mcWrite A w).length :=
      Nat.one_le_iff_ne_zero.mpr (by
        intro hc
        exact mcWrite_ne_nil A w (List.length_eq_zero.mp hc))
    omega

/-- Claim C1: for every AEAD cipher with the AES-GCM laws (12-byte nonce,
    round trip, 16-byte tag overhead) and every finite sequence of Write
    calls, the emitted byte stream parses as exactly one well-formed Chunk
    Data frame (outer id 0x25, the specified payload layout) per call, and
    opening each encrypted body yields exactly that call's plaintext, in
    emission order; concatenating the parsed plaintexts therefore
    reconstructs the written byte stream. -/
theorem transport_round_trip (A : AEAD) (hA : A.nonceSize = 12)
    (ws : List WriteCall)
    (h : ∀ w ∈ ws, w.nonce.length = A.nonceSize ∧ w.plain.length ≤ 2 ^ 30) :
    parseChunkStream A ((ws.map (mcWrite A)).flatten)
      = some (ws.map WriteCall.plain) := by
  rw [parseChunkStream]
  exact parseStreamAux_writes A hA ws _ h (length_le_flatten_mcWrite A ws)

/-- A concrete cipher satisfying the AEAD laws, used by the witness. -/
def aead0 : AEAD where
  nonceSize := 12
  sealB := fun _ p => p ++ List.replicate 16 0
  openB := fun _ c => some (c.take (c.length - 16))
  sealB_openB := by
    intro n p
    show some ((p ++ List.replicate 16 0).take
      ((p ++ List.replicate 16 0).length - 16)) = some p
    have h : (p ++ List.replicate 16 0).length - 16 = p.length := by simp
    rw [h, List.take_left]
  sealB_length := by
    intro n p
    simp

/-- Witness for C1: one Write call of the plaintext 1 2 3 under the
    concrete cipher. -/
theorem transport_round_trip_witness :
    parseChunkStream aead0
        ((([⟨0, 0, [1, 2, 3], List.replicate 12 0⟩] : List WriteCall).map
          (mcWrite aead0)).flatten)
      = some (([⟨0, 0, [1, 2, 3], List.replicate 12 0⟩] : List WriteCall).map
          WriteCall.plain) := by
  apply transport_round_trip aead0 rfl
  intro w hw
  rw [List.mem_singleton] at hw
  subst hw
  constructor
  · simp [aead0]
  · norm_num

end Minewire
